import Mathlib

/-!
Verification of the coupled-field solve loop of `examples/elphf/input.py`
(FiPy).  The script builds five coupled cell fields — the phase field `xi`,
the electrostatic potential `phi`, two substitutional species and one
interstitial species — and runs 500 outer time steps of `dt = 1`, each with
100 inner Picard iterations.  Every inner iteration solves each field's
equation in a fixed order, tracks the maximum residual seen this iteration,
and copies each equation's residual into the field's residual variable.

The FiPy library internals (`CellVariable`, `equation.solve`, `updateOld`,
the LU solver) are not part of the excerpt; they are modelled from the
specification as an opaque solve oracle and an old-value snapshot, while
the loop itself is translated statement by statement.
-/

namespace Elphf

/-- A cell-value array over the 1-D mesh; entries are modelled as rationals. -/
abbrev Arr := List ℚ

/-- Modelled from the spec: a field variable (FiPy `CellVariable`) carries
its current value array, the previous snapshot written by `updateOld`
(used by transient terms), and the residual cell variable that the loop
overwrites after each solve (`field.residual[:] = field.equation.residual`). -/
structure Field where
  value : Arr
  old : Arr
  residual : Arr
deriving DecidableEq

/-- Modelled from the spec: `field.updateOld()` snapshots the current value
into the field's old state. -/
def Field.updateOld (f : Field) : Field :=
  { f with old := f.value }

/-- Identifier of a field in the ordered collection of the example:
the phase field, the potential, the substitutional species (indexed within
`substitutionals`), and the interstitial species (indexed within
`interstitials`). -/
inductive FieldId where
  | phase : FieldId
  | potential : FieldId
  | sub : Nat → FieldId
  | inter : Nat → FieldId
deriving DecidableEq

/-- The mutable state of the solve loop: the five fields of the example,
with the species kept in the two lists the script iterates over
(`substitutionals + interstitials`). -/
structure State where
  phase : Field
  potential : Field
  subs : List Field
  ints : List Field
deriving DecidableEq

/-- Look up a field of the state by identifier (species indices may be out
of range, hence the option). -/
def State.getField (s : State) : FieldId → Option Field
  | .phase => some s.phase
  | .potential => some s.potential
  | .sub i => s.subs[i]?
  | .inter i => s.ints[i]?

/-- Replace the field named by the identifier (no-op on an out-of-range
species index, mirroring that no such object exists to mutate). -/
def State.setVar (s : State) (id : FieldId) (f : Field) : State :=
  match id with
  | .phase => { s with phase := f }
  | .potential => { s with potential := f }
  | .sub i => { s with subs := s.subs.set i f }
  | .inter i => { s with ints := s.ints.set i f }

/-- Result of one equation solve: the new value array written into the
`var` argument and the equation's residual array. -/
structure SolveResult where
  newValue : Arr
  residual : Arr
deriving DecidableEq

/-- Modelled from the spec: the `SolveFailure` error raised when the
underlying linear/nonlinear solve does not converge or is singular; its
payload is opaque. -/
structure SolveFailure where
  code : Nat
deriving DecidableEq

/-- The arguments of one `equation.solve` call in the script: the field
owning the equation, the `var =` argument, the time step, and whether the
call passes explicit `boundaryConditions = bcs` and `solver = solver`
keywords. -/
structure SolveArgs where
  eq : FieldId
  var : FieldId
  dt : ℚ
  bcs : Bool
  solver : Bool
deriving DecidableEq

/-- One observed solve call: its arguments and the residual the equation
exposed after the solve. -/
structure SolveEvent where
  args : SolveArgs
  residual : Arr
deriving DecidableEq

/-- Modelled from the spec: `equation.solve` is an opaque operation of the
underlying library; it may read the entire coupled state and produces the
new value array for its variable together with the equation residual. -/
def Oracle : Type := SolveArgs → State → SolveResult

/-- Modelled from the spec: a fallible solve, which may instead raise a
`SolveFailure`. -/
def OracleE : Type := SolveArgs → State → Except SolveFailure SolveResult

/-- A total solve viewed as a fallible one that never fails. -/
def liftOracle (o : Oracle) : OracleE :=
  fun a s => .ok (o a s)

/-- Python's `max` over a value array (junk value 0 on the empty array,
which does not occur: every residual array has one entry per mesh cell). -/
def listMax : Arr → ℚ
  | [] => 0
  | x :: xs => xs.foldl max x

/-- The residual contribution of one solve event:
`max(field.equation.residual)` in the script. -/
def resOfEvent (e : SolveEvent) : ℚ := listMax e.residual

/-- Arguments of `phase.equation.solve(var = phase, dt = dt)`. -/
def phaseArgs (dt : ℚ) : SolveArgs :=
  ⟨.phase, .phase, dt, false, false⟩

/-- Arguments of `potential.equation.solve(var = potential, dt = dt,
boundaryConditions = bcs)`. -/
def potentialArgs (dt : ℚ) : SolveArgs :=
  ⟨.potential, .potential, dt, true, false⟩

/-- Arguments of `Cj.equation.solve(var = Cj, dt = dt, solver = solver)`. -/
def speciesArgs (id : FieldId) (dt : ℚ) : SolveArgs :=
  ⟨id, id, dt, false, true⟩

/-- The identifiers of the substitutional species, in list order. -/
def subIds (n : Nat) : List FieldId :=
  (List.range n).map .sub

/-- The identifiers of the interstitial species, in list order. -/
def interIds (n : Nat) : List FieldId :=
  (List.range n).map .inter

/-- Apply one solve's outcome to the state: the `var` field's value array
is overwritten with the new value and, as the next statement of the script
does, its residual variable is overwritten with the equation residual. -/
def writeSolve (s : State) (id : FieldId) (r : SolveResult) : State :=
  match s.getField id with
  | none => s
  | some f => s.setVar id { f with value := r.newValue, residual := r.residual }

/-- One `equation.solve` call: consult the oracle on the current coupled
state; on success mutate the `var` field and record the event, on failure
propagate the exception together with the state at the moment of failure. -/
def solveStep (o : OracleE) (a : SolveArgs) (s : State) :
    Except (SolveFailure × State) (State × SolveEvent) :=
  match o a s with
  | .error e => .error (e, s)
  | .ok r => .ok (writeSolve s a.var r, ⟨a, r.residual⟩)

/-- The loop `for Cj in substitutionals + interstitials: Cj.equation.solve
(var = Cj, dt = dt, solver = solver); residual = max(max(...), residual);
Cj.residual[:] = ...`, threading the state, the event list and the tracked
residual through the given identifier sequence. -/
def solveSeq (o : OracleE) (dt : ℚ) :
    List FieldId → State → ℚ →
      Except (SolveFailure × State) (State × List SolveEvent × ℚ)
  | [], s, r => .ok (s, [], r)
  | id :: ids, s, r =>
    match solveStep o (speciesArgs id dt) s with
    | .error e => .error e
    | .ok (s1, ev) =>
      match solveSeq o dt ids s1 (max (resOfEvent ev) r) with
      | .error e => .error e
      | .ok (s2, evs, r2) => .ok (s2, ev :: evs, r2)

/-- One inner iteration of the script: reset the tracked residual to 0,
solve the phase equation, then the potential equation (with the boundary
conditions), then each substitutional and each interstitial species (with
the LU solver), folding each solve's maximum residual into the tracker. -/
def innerIter (o : OracleE) (dt : ℚ) (s : State) :
    Except (SolveFailure × State) (State × List SolveEvent × ℚ) :=
  match solveStep o (phaseArgs dt) s with
  | .error e => .error e
  | .ok (s1, e1) =>
    match solveStep o (potentialArgs dt) s1 with
    | .error e => .error e
    | .ok (s2, e2) =>
      match solveSeq o dt (subIds s.subs.length ++ interIds s.ints.length) s2
          (max (resOfEvent e2) (max (resOfEvent e1) 0)) with
      | .error e => .error e
      | .ok (s3, evs, r) => .ok (s3, e1 :: e2 :: evs, r)

/-- The inner loop `for j in range(100)`: run the given number of inner
iterations; the tracked residual variable of the enclosing scope carries
the last iteration's final value (each iteration starts by resetting it). -/
def innerLoop (o : OracleE) (dt : ℚ) :
    Nat → State → ℚ →
      Except (SolveFailure × State) (State × List SolveEvent × ℚ)
  | 0, s, r => .ok (s, [], r)
  | m + 1, s, _r =>
    match innerIter o dt s with
    | .error e => .error e
    | .ok (s1, evs, r1) =>
      match innerLoop o dt m s1 r1 with
      | .error e => .error e
      | .ok (s2, evs2, r2) => .ok (s2, evs ++ evs2, r2)

/-- The snapshot pass `for field in [phase, potential] + substitutionals +
interstitials: field.updateOld()` at the head of each outer step. -/
def updateOldAll (s : State) : State :=
  { phase := s.phase.updateOld
    potential := s.potential.updateOld
    subs := s.subs.map Field.updateOld
    ints := s.ints.map Field.updateOld }

/-- One outer step: snapshot every field's old value, then run the inner
loop; `r` is the value held by the `residual` variable on entry. -/
def outerStep (o : OracleE) (dt : ℚ) (m : Nat) (s : State) (r : ℚ) :
    Except (SolveFailure × State) (State × List SolveEvent × ℚ) :=
  innerLoop o dt m (updateOldAll s) r

/-- The outer loop `for i in range(500)` with `m` inner iterations per
step: returns the final state, the full trace of solve events, the residual
printed at the end of each outer step (oldest first), and the elapsed time
`n * dt`. -/
def run (o : OracleE) (dt : ℚ) (m : Nat) :
    Nat → State → ℚ →
      Except (SolveFailure × State) (State × List SolveEvent × List ℚ × ℚ)
  | 0, s, _ => .ok (s, [], [], 0)
  | n + 1, s, r =>
    match outerStep o dt m s r with
    | .error e => .error e
    | .ok (s1, evs, r1) =>
      match run o dt m n s1 r1 with
      | .error e => .error e
      | .ok (s2, evs2, rs, t) => .ok (s2, evs ++ evs2, r1 :: rs, t + dt)

/-- The events of a loop outcome (empty on failure: the exception carries
no events, since the run aborts at the failing solve). -/
def eventsOf (x : Except (SolveFailure × State) (State × List SolveEvent × ℚ)) :
    List SolveEvent :=
  match x with
  | .error _ => []
  | .ok (_, evs, _) => evs

/-- How many solve events of a trace invoke the given field's equation. -/
def ownerCount (f : FieldId) (evs : List SolveEvent) : Nat :=
  (evs.filter (fun e => e.args.eq == f)).length

/-- How many solve events of a trace pass the given field as `var`. -/
def varCount (f : FieldId) (evs : List SolveEvent) : Nat :=
  (evs.filter (fun e => e.args.var == f)).length

/-- A field identifier that denotes an actual field of the state. -/
def validField (s : State) : FieldId → Prop
  | .phase => True
  | .potential => True
  | .sub i => i < s.subs.length
  | .inter i => i < s.ints.length

instance (s : State) (f : FieldId) : Decidable (validField s f) := by
  cases f <;> simp only [validField] <;> infer_instance

/-- How many times one inner iteration solves the given field's equation:
once for each actual field, never for an out-of-range species index. -/
def iterCount (ns ni : Nat) : FieldId → Nat
  | .phase => 1
  | .potential => 1
  | .sub i => if i < ns then 1 else 0
  | .inter i => if i < ni then 1 else 0

@[simp] lemma phaseArgs_eq (dt : ℚ) : (phaseArgs dt).eq = .phase := rfl

@[simp] lemma phaseArgs_var (dt : ℚ) : (phaseArgs dt).var = .phase := rfl

@[simp] lemma potentialArgs_eq (dt : ℚ) : (potentialArgs dt).eq = .potential := rfl

@[simp] lemma potentialArgs_var (dt : ℚ) : (potentialArgs dt).var = .potential := rfl

@[simp] lemma speciesArgs_eq (id : FieldId) (dt : ℚ) : (speciesArgs id dt).eq = id := rfl

@[simp] lemma speciesArgs_var (id : FieldId) (dt : ℚ) : (speciesArgs id dt).var = id := rfl

lemma foldr_max_pull (a b : ℚ) (l : List ℚ) :
    l.foldr max (max a b) = max a (l.foldr max b) := by
  induction l with
  | nil => rfl
  | cons x l ih =>
    simp only [List.foldr_cons, ih]
    rw [max_left_comm]

@[simp] lemma writeSolve_subs_length (s : State) (id : FieldId) (r : SolveResult) :
    (writeSolve s id r).subs.length = s.subs.length := by
  unfold writeSolve
  cases s.getField id with
  | none => rfl
  | some f => cases id <;> simp [State.setVar]

@[simp] lemma writeSolve_ints_length (s : State) (id : FieldId) (r : SolveResult) :
    (writeSolve s id r).ints.length = s.ints.length := by
  unfold writeSolve
  cases s.getField id with
  | none => rfl
  | some f => cases id <;> simp [State.setVar]

lemma getField_setVar_ne (s : State) (id id' : FieldId) (f : Field) (h : id' ≠ id) :
    (s.setVar id f).getField id' = s.getField id' := by
  cases id with
  | phase =>
    cases id' with
    | phase => exact absurd rfl h
    | potential => rfl
    | sub j => rfl
    | inter j => rfl
  | potential =>
    cases id' with
    | phase => rfl
    | potential => exact absurd rfl h
    | sub j => rfl
    | inter j => rfl
  | sub i =>
    cases id' with
    | phase => rfl
    | potential => rfl
    | sub j =>
      show (s.subs.set i f)[j]? = s.subs[j]?
      exact List.getElem?_set_ne (fun hij => h (by rw [hij]))
    | inter j => rfl
  | inter i =>
    cases id' with
    | phase => rfl
    | potential => rfl
    | sub j => rfl
    | inter j =>
      show (s.ints.set i f)[j]? = s.ints[j]?
      exact List.getElem?_set_ne (fun hij => h (by rw [hij]))

lemma getField_writeSolve_ne (s : State) (id id' : FieldId) (r : SolveResult)
    (h : id' ≠ id) : (writeSolve s id r).getField id' = s.getField id' := by
  unfold writeSolve
  cases s.getField id with
  | none => rfl
  | some f => exact getField_setVar_ne s id id' _ h

lemma count_range (i n : Nat) : (List.range n).count i = if i < n then 1 else 0 := by
  induction n with
  | zero => simp
  | succ n ih =>
    rw [List.range_succ, List.count_append, ih, List.count_singleton]
    simp only [beq_iff_eq]
    split_ifs <;> omega

lemma sub_injective : Function.Injective FieldId.sub := by
  intro a b h
  injection h

lemma inter_injective : Function.Injective FieldId.inter := by
  intro a b h
  injection h

lemma count_subIds_sub (i n : Nat) :
    (subIds n).count (.sub i) = if i < n then 1 else 0 := by
  rw [subIds, List.count_map_of_injective _ _ sub_injective, count_range]

lemma count_interIds_inter (i n : Nat) :
    (interIds n).count (.inter i) = if i < n then 1 else 0 := by
  rw [interIds, List.count_map_of_injective _ _ inter_injective, count_range]

lemma count_subIds_ne (f : FieldId) (n : Nat) (h : ∀ i, f ≠ .sub i) :
    (subIds n).count f = 0 := by
  refine List.count_eq_zero.2 (fun hm => ?_)
  obtain ⟨i, _, hi⟩ := List.mem_map.1 hm
  exact h i hi.symm

lemma count_interIds_ne (f : FieldId) (n : Nat) (h : ∀ i, f ≠ .inter i) :
    (interIds n).count f = 0 := by
  refine List.count_eq_zero.2 (fun hm => ?_)
  obtain ⟨i, _, hi⟩ := List.mem_map.1 hm
  exact h i hi.symm

lemma count_iterIds (ns ni : Nat) (f : FieldId) :
    (FieldId.phase :: FieldId.potential :: (subIds ns ++ interIds ni)).count f
      = iterCount ns ni f := by
  rw [List.count_cons, List.count_cons, List.count_append]
  cases f with
  | phase =>
    rw [count_subIds_ne _ _ (fun i h => by injection h),
      count_interIds_ne _ _ (fun i h => by injection h)]
    simp [iterCount]
  | potential =>
    rw [count_subIds_ne _ _ (fun i h => by injection h),
      count_interIds_ne _ _ (fun i h => by injection h)]
    simp [iterCount]
  | sub i =>
    rw [count_subIds_sub, count_interIds_ne _ _ (fun j h => by injection h)]
    simp [iterCount]
  | inter i =>
    rw [count_interIds_inter, count_subIds_ne _ _ (fun j h => by injection h)]
    simp [iterCount]

lemma ownerCount_map_args (f : FieldId) (evs : List SolveEvent) :
    ownerCount f evs = (evs.map (fun e => e.args.eq)).count f := by
  unfold ownerCount
  rw [List.count_eq_countP, List.countP_map, List.countP_eq_length_filter]
  rfl

lemma varCount_map_args (f : FieldId) (evs : List SolveEvent) :
    varCount f evs = (evs.map (fun e => e.args.var)).count f := by
  unfold varCount
  rw [List.count_eq_countP, List.countP_map, List.countP_eq_length_filter]
  rfl

lemma ownerCount_append (f : FieldId) (a b : List SolveEvent) :
    ownerCount f (a ++ b) = ownerCount f a + ownerCount f b := by
  simp [ownerCount, List.filter_append]

lemma varCount_append (f : FieldId) (a b : List SolveEvent) :
    varCount f (a ++ b) = varCount f a + varCount f b := by
  simp [varCount, List.filter_append]

lemma solveStep_lift (o : Oracle) (a : SolveArgs) (s : State) :
    solveStep (liftOracle o) a s
      = .ok (writeSolve s a.var (o a s), ⟨a, (o a s).residual⟩) := rfl

lemma solveSeq_lift (o : Oracle) (dt : ℚ) :
    ∀ (ids : List FieldId) (s : State) (r : ℚ),
    ∃ s' evs, solveSeq (liftOracle o) dt ids s r
        = .ok (s', evs, (evs.map resOfEvent).foldr max r)
      ∧ evs.map (fun e => e.args) = ids.map (fun id => speciesArgs id dt)
      ∧ s'.subs.length = s.subs.length ∧ s'.ints.length = s.ints.length := by
  intro ids
  induction ids with
  | nil =>
    intro s r
    exact ⟨s, [], rfl, rfl, rfl, rfl⟩
  | cons id ids ih =>
    intro s r
    obtain ⟨s', evs, hseq, hargs, hsl, hil⟩ :=
      ih (writeSolve s id (o (speciesArgs id dt) s))
        (max (resOfEvent ⟨speciesArgs id dt, (o (speciesArgs id dt) s).residual⟩) r)
    refine ⟨s', ⟨speciesArgs id dt, (o (speciesArgs id dt) s).residual⟩ :: evs,
      ?_, ?_, ?_, ?_⟩
    · simp only [solveSeq, solveStep_lift, speciesArgs_var]
      rw [hseq]
      simp only [List.map_cons, List.foldr_cons, foldr_max_pull]
    · simp only [List.map_cons, hargs]
    · rw [hsl]
      simp
    · rw [hil]
      simp

lemma innerIter_lift (o : Oracle) (dt : ℚ) (s : State) :
    ∃ s' evsT r,
      innerIter (liftOracle o) dt s
        = .ok (s',
            ⟨phaseArgs dt, (o (phaseArgs dt) s).residual⟩ ::
            ⟨potentialArgs dt,
              (o (potentialArgs dt)
                (writeSolve s .phase (o (phaseArgs dt) s))).residual⟩ :: evsT,
            r)
      ∧ evsT.map (fun e => e.args)
          = (subIds s.subs.length ++ interIds s.ints.length).map
              (fun id => speciesArgs id dt)
      ∧ r = (((⟨phaseArgs dt, (o (phaseArgs dt) s).residual⟩ :
            SolveEvent) ::
            ⟨potentialArgs dt,
              (o (potentialArgs dt)
                (writeSolve s .phase (o (phaseArgs dt) s))).residual⟩ ::
            evsT).map resOfEvent).foldr max 0
      ∧ s'.subs.length = s.subs.length ∧ s'.ints.length = s.ints.length := by
  obtain ⟨s', evs, hseq, hargs, hsl, hil⟩ :=
    solveSeq_lift o dt (subIds s.subs.length ++ interIds s.ints.length)
      (writeSolve (writeSolve s .phase (o (phaseArgs dt) s)) .potential
        (o (potentialArgs dt) (writeSolve s .phase (o (phaseArgs dt) s))))
      (max (resOfEvent ⟨potentialArgs dt,
          (o (potentialArgs dt)
            (writeSolve s .phase (o (phaseArgs dt) s))).residual⟩)
        (max (resOfEvent ⟨phaseArgs dt, (o (phaseArgs dt) s).residual⟩) 0))
  refine ⟨s', evs,
    (evs.map resOfEvent).foldr max
      (max (resOfEvent ⟨potentialArgs dt,
          (o (potentialArgs dt)
            (writeSolve s .phase (o (phaseArgs dt) s))).residual⟩)
        (max (resOfEvent ⟨phaseArgs dt, (o (phaseArgs dt) s).residual⟩) 0)),
    ?_, hargs, ?_, ?_, ?_⟩
  · simp only [innerIter, solveStep_lift, phaseArgs_var, potentialArgs_var]
    rw [hseq]
  · simp only [List.map_cons, List.foldr_cons]
    rw [foldr_max_pull, foldr_max_pull, max_left_comm]
  · rw [hsl]
    simp
  · rw [hil]
    simp

lemma innerIter_args (o : Oracle) (dt : ℚ) (s : State) :
    ∃ s' evs r, innerIter (liftOracle o) dt s = .ok (s', evs, r)
      ∧ evs.map (fun e => e.args)
          = phaseArgs dt :: potentialArgs dt ::
            (subIds s.subs.length ++ interIds s.ints.length).map
              (fun id => speciesArgs id dt)
      ∧ r = (evs.map resOfEvent).foldr max 0
      ∧ s'.subs.length = s.subs.length ∧ s'.ints.length = s.ints.length := by
  obtain ⟨s', evsT, r, hIter, hargs, hr, hsl, hil⟩ := innerIter_lift o dt s
  exact ⟨s', _, r, hIter, by simp only [List.map_cons, hargs], hr, hsl, hil⟩

lemma ownerCount_of_args_map (evs : List SolveEvent) (l : List SolveArgs)
    (h : evs.map (fun e => e.args) = l) (f : FieldId) :
    ownerCount f evs = (l.map (fun a => a.eq)).count f := by
  rw [ownerCount_map_args, ← h, List.map_map]
  rfl

lemma varCount_of_args_map (evs : List SolveEvent) (l : List SolveArgs)
    (h : evs.map (fun e => e.args) = l) (f : FieldId) :
    varCount f evs = (l.map (fun a => a.var)).count f := by
  rw [varCount_map_args, ← h, List.map_map]
  rfl

lemma iterArgs_eq_map (dt : ℚ) (ns ni : Nat) :
    ((phaseArgs dt :: potentialArgs dt ::
        (subIds ns ++ interIds ni).map (fun id => speciesArgs id dt)).map
      (fun a => a.eq))
      = FieldId.phase :: FieldId.potential :: (subIds ns ++ interIds ni) := by
  simp only [List.map_cons, phaseArgs_eq, potentialArgs_eq, List.map_map]
  have h : ((fun a : SolveArgs => a.eq) ∘ fun id => speciesArgs id dt)
      = fun id : FieldId => id := rfl
  rw [h, List.map_id']

lemma iterArgs_var_map (dt : ℚ) (ns ni : Nat) :
    ((phaseArgs dt :: potentialArgs dt ::
        (subIds ns ++ interIds ni).map (fun id => speciesArgs id dt)).map
      (fun a => a.var))
      = FieldId.phase :: FieldId.potential :: (subIds ns ++ interIds ni) := by
  simp only [List.map_cons, phaseArgs_var, potentialArgs_var, List.map_map]
  have h : ((fun a : SolveArgs => a.var) ∘ fun id => speciesArgs id dt)
      = fun id : FieldId => id := rfl
  rw [h, List.map_id']

lemma ownerCount_innerIter (o : Oracle) (dt : ℚ) (s : State)
    (s' : State) (evs : List SolveEvent) (r : ℚ)
    (h : innerIter (liftOracle o) dt s = .ok (s', evs, r)) (f : FieldId) :
    ownerCount f evs = iterCount s.subs.length s.ints.length f
      ∧ varCount f evs = iterCount s.subs.length s.ints.length f := by
  obtain ⟨s2, evs2, r2, hIter, hargs, _, _, _⟩ := innerIter_args o dt s
  rw [h] at hIter
  injection hIter with hA
  injection hA with hs hrest
  injection hrest with hevs hr2
  subst hevs
  rw [ownerCount_of_args_map evs _ hargs f, varCount_of_args_map evs _ hargs f,
    iterArgs_eq_map, iterArgs_var_map, count_iterIds]
  exact ⟨rfl, rfl⟩

lemma innerLoop_lift (o : Oracle) (dt : ℚ) :
    ∀ (m : Nat) (s : State) (r0 : ℚ),
    ∃ s' evs r, innerLoop (liftOracle o) dt m s r0 = .ok (s', evs, r)
      ∧ (∀ f, ownerCount f evs = m * iterCount s.subs.length s.ints.length f)
      ∧ (∀ f, varCount f evs = m * iterCount s.subs.length s.ints.length f)
      ∧ s'.subs.length = s.subs.length ∧ s'.ints.length = s.ints.length := by
  intro m
  induction m with
  | zero =>
    intro s r0
    exact ⟨s, [], r0, rfl, fun f => by simp [ownerCount],
      fun f => by simp [varCount], rfl, rfl⟩
  | succ m ih =>
    intro s r0
    obtain ⟨s1, evs1, r1, hIter, hargs, hr, hsl1, hil1⟩ := innerIter_args o dt s
    obtain ⟨s2, evs2, r2, hLoop, hown, hvar, hsl2, hil2⟩ := ih s1 r1
    refine ⟨s2, evs1 ++ evs2, r2, ?_, ?_, ?_, ?_, ?_⟩
    · simp only [innerLoop, hIter, hLoop]
    · intro f
      obtain ⟨ho1, _⟩ := ownerCount_innerIter o dt s s1 evs1 r1 hIter f
      rw [ownerCount_append, ho1, hown f, hsl1, hil1, Nat.succ_mul, Nat.add_comm]
    · intro f
      obtain ⟨_, hv1⟩ := ownerCount_innerIter o dt s s1 evs1 r1 hIter f
      rw [varCount_append, hv1, hvar f, hsl1, hil1, Nat.succ_mul, Nat.add_comm]
    · rw [hsl2, hsl1]
    · rw [hil2, hil1]

@[simp] lemma updateOldAll_subs_length (s : State) :
    (updateOldAll s).subs.length = s.subs.length := by
  simp [updateOldAll]

@[simp] lemma updateOldAll_ints_length (s : State) :
    (updateOldAll s).ints.length = s.ints.length := by
  simp [updateOldAll]

lemma run_lift (o : Oracle) (dt : ℚ) (m : Nat) :
    ∀ (n : Nat) (s : State) (r0 : ℚ),
    ∃ s' evs rs t, run (liftOracle o) dt m n s r0 = .ok (s', evs, rs, t)
      ∧ (∀ f, ownerCount f evs = n * (m * iterCount s.subs.length s.ints.length f))
      ∧ rs.length = n
      ∧ s'.subs.length = s.subs.length ∧ s'.ints.length = s.ints.length := by
  intro n
  induction n with
  | zero =>
    intro s r0
    exact ⟨s, [], [], 0, rfl, fun f => by simp [ownerCount], rfl, rfl, rfl⟩
  | succ n ih =>
    intro s r0
    obtain ⟨s1, evs1, r1, hLoop, hown1, _, hsl1, hil1⟩ :=
      innerLoop_lift o dt m (updateOldAll s) r0
    obtain ⟨s2, evs2, rs, t, hRun, hown2, hlen, hsl2, hil2⟩ := ih s1 r1
    refine ⟨s2, evs1 ++ evs2, r1 :: rs, t + dt, ?_, ?_, ?_, ?_, ?_⟩
    · simp only [run, outerStep, hLoop, hRun]
    · intro f
      rw [ownerCount_append, hown1 f, hown2 f,
        updateOldAll_subs_length, updateOldAll_ints_length,
        hsl1, hil1, updateOldAll_subs_length, updateOldAll_ints_length,
        Nat.succ_mul, Nat.add_comm]
    · simp [hlen]
    · rw [hsl2, hsl1, updateOldAll_subs_length]
    · rw [hil2, hil1, updateOldAll_ints_length]

lemma innerLoop_succ_ok (o' : OracleE) (dt : ℚ) (m : Nat) (s : State) (r0 : ℚ)
    (s1 : State) (evs1 : List SolveEvent) (r1 : ℚ)
    (s2 : State) (evs2 : List SolveEvent) (r2 : ℚ)
    (h1 : innerIter o' dt s = .ok (s1, evs1, r1))
    (h2 : innerLoop o' dt m s1 r1 = .ok (s2, evs2, r2)) :
    innerLoop o' dt (m + 1) s r0 = .ok (s2, evs1 ++ evs2, r2) := by
  simp only [innerLoop, h1, h2]

lemma innerLoop_snoc (o : Oracle) (dt : ℚ) :
    ∀ (m : Nat) (s : State) (r0 : ℚ),
    ∃ sMid evs1 rMid s' evs2 r,
      innerLoop (liftOracle o) dt m s r0 = .ok (sMid, evs1, rMid)
      ∧ innerIter (liftOracle o) dt sMid = .ok (s', evs2, r)
      ∧ ∀ r0', innerLoop (liftOracle o) dt (m + 1) s r0' = .ok (s', evs1 ++ evs2, r) := by
  intro m
  induction m with
  | zero =>
    intro s r0
    obtain ⟨s', evs, r, hIter, _, _, _, _⟩ := innerIter_args o dt s
    refine ⟨s, [], r0, s', evs, r, rfl, hIter, fun r0' => ?_⟩
    simp only [innerLoop, hIter]
    simp
  | succ m ih =>
    intro s r0
    obtain ⟨s1, evsA, rA, hIter1, _, _, _, _⟩ := innerIter_args o dt s
    obtain ⟨sMid, evs1, rMid, s', evs2, r, hLoop, hIter2, hAll⟩ := ih s1 rA
    refine ⟨sMid, evsA ++ evs1, rMid, s', evs2, r, ?_, hIter2, fun r0' => ?_⟩
    · simp only [innerLoop, hIter1, hLoop]
    · rw [innerLoop_succ_ok (liftOracle o) dt (m + 1) s r0' s1 evsA rA s'
        (evs1 ++ evs2) r hIter1 (hAll rA), List.append_assoc]

lemma iterCount_eq_one (s : State) (f : FieldId) (hf : validField s f) :
    iterCount s.subs.length s.ints.length f = 1 := by
  cases f <;> simp_all [validField, iterCount]

/-- The argument lists of the solve calls of one inner iteration, in the
order the script issues them: phase, potential, then each substitutional
and each interstitial species. -/
def iterArgsList (dt : ℚ) (s : State) : List SolveArgs :=
  phaseArgs dt :: potentialArgs dt ::
    (subIds s.subs.length ++ interIds s.ints.length).map
      (fun id => speciesArgs id dt)

/-- The reference first-failure semantics of a sequence of solve calls:
perform each solve in order on the threaded state, stopping at the first
`SolveFailure` with the state exactly as it is at that moment (completed
solves applied, everything else untouched); no tracker or event
bookkeeping. -/
def solveArgs (o : OracleE) : List SolveArgs → State →
    Except (SolveFailure × State) State
  | [], s => .ok s
  | a :: rest, s =>
    match o a s with
    | .error e => .error (e, s)
    | .ok r => solveArgs o rest (writeSolve s a.var r)

lemma solveSeq_error_of_solveArgs (o : OracleE) (dt : ℚ) :
    ∀ (ids : List FieldId) (s : State) (r : ℚ) (e : SolveFailure) (sf : State),
    solveArgs o (ids.map (fun id => speciesArgs id dt)) s = .error (e, sf) →
    solveSeq o dt ids s r = .error (e, sf) := by
  intro ids
  induction ids with
  | nil =>
    intro s r e sf h
    simp [solveArgs] at h
  | cons id ids ih =>
    intro s r e sf h
    simp only [List.map_cons, solveArgs] at h
    cases ho : o (speciesArgs id dt) s with
    | error e1 =>
      simp only [ho] at h
      injection h with h'
      injection h' with he hs
      subst he
      subst hs
      simp only [solveSeq, solveStep, ho]
    | ok r1 =>
      simp only [ho, speciesArgs_var] at h
      have hrec := ih (writeSolve s id r1)
        (max (resOfEvent ⟨speciesArgs id dt, r1.residual⟩) r) e sf h
      simp only [solveSeq, solveStep, ho, speciesArgs_var, hrec]

lemma innerIter_error_of_solveArgs (o : OracleE) (dt : ℚ) (s : State)
    (e : SolveFailure) (sf : State)
    (h : solveArgs o (iterArgsList dt s) s = .error (e, sf)) :
    innerIter o dt s = .error (e, sf) := by
  simp only [iterArgsList, solveArgs] at h
  cases h1 : o (phaseArgs dt) s with
  | error e1 =>
    simp only [h1] at h
    injection h with h'
    injection h' with he hs
    subst he
    subst hs
    simp only [innerIter, solveStep, h1]
  | ok r1 =>
    simp only [h1, phaseArgs_var] at h
    cases h2 : o (potentialArgs dt) (writeSolve s .phase r1) with
    | error e2 =>
      simp only [h2] at h
      injection h with h'
      injection h' with he hs
      subst he
      subst hs
      simp only [innerIter, solveStep, h1, h2, phaseArgs_var]
    | ok r2 =>
      simp only [h2, potentialArgs_var] at h
      have hseq := solveSeq_error_of_solveArgs o dt
        (subIds s.subs.length ++ interIds s.ints.length)
        (writeSolve (writeSolve s .phase r1) .potential r2)
        (max (resOfEvent ⟨potentialArgs dt, r2.residual⟩)
          (max (resOfEvent ⟨phaseArgs dt, r1.residual⟩) 0)) e sf h
      simp only [innerIter, solveStep, h1, h2, phaseArgs_var, potentialArgs_var,
        hseq]

/-- A one-cell field used in concrete instantiations. -/
def field0 : Field := ⟨[1], [0], [0]⟩

/-- A concrete five-field state mirroring the example's collection: phase,
potential, two substitutional species and one interstitial species. -/
def state0 : State := ⟨field0, field0, [field0, field0], [field0]⟩

/-- A concrete total solve oracle: every solve returns value `[2]` and
residual `[3]`. -/
def oracle0 : Oracle := fun _ _ => ⟨[2], [3]⟩

/-- A concrete fallible solve oracle whose second substitutional species
solve raises a `SolveFailure` while every other solve succeeds. -/
def oracleFailSub : OracleE := fun a _ =>
  match a.eq with
  | .sub 1 => .error ⟨7⟩
  | _ => .ok ⟨[2], [3]⟩

/-- C1: for every inner iteration (under a solve oracle that does not
fail), the residual tracked by the loop equals the maximum, over the solve
events of that iteration — phase, potential, the substitutional species
and the interstitial species — of the maximum entry of that solve's
equation residual, the fold starting from the tracker's reset value 0. -/
theorem C1_residual_tracker (o : Oracle) (dt : ℚ) (s : State) :
    ∃ s' evs r, innerIter (liftOracle o) dt s = .ok (s', evs, r)
      ∧ r = (evs.map resOfEvent).foldr max 0 := by
  obtain ⟨s', evs, r, hIter, _, hr, _, _⟩ := innerIter_args o dt s
  exact ⟨s', evs, r, hIter, hr⟩

/-- C3: the inner loop runs its fixed budget of 100 iterations in each of
the 500 outer steps regardless of the residual values the oracle produces:
every actual field's equation is solved exactly 500 * 100 times over the
whole run, and the residual history records one value per outer step. -/
theorem C3_fixed_iteration_budget (o : Oracle) (dt : ℚ) (s : State) (r0 : ℚ)
    (f : FieldId) (hf : validField s f) :
    ∃ s' evs rs t, run (liftOracle o) dt 100 500 s r0 = .ok (s', evs, rs, t)
      ∧ ownerCount f evs = 500 * 100
      ∧ rs.length = 500 := by
  obtain ⟨s', evs, rs, t, hRun, hown, hlen, _, _⟩ := run_lift o dt 100 500 s r0
  refine ⟨s', evs, rs, t, hRun, ?_, hlen⟩
  rw [hown f, iterCount_eq_one s f hf]

/-- Witness for C3 at a concrete oracle, state and field. -/
theorem C3_fixed_iteration_budget_witness :
    validField state0 (.sub 1)
      ∧ ∃ s' evs rs t,
          run (liftOracle oracle0) 1 100 500 state0 0 = .ok (s', evs, rs, t)
            ∧ ownerCount (.sub 1) evs = 500 * 100
            ∧ rs.length = 500 :=
  ⟨by decide, C3_fixed_iteration_budget oracle0 1 state0 0 (.sub 1) (by decide)⟩

/-- C4 as stated is false on the code: not every solve call of an inner
iteration passes the boundary conditions; only
`potential.equation.solve(var = potential, dt = dt, boundaryConditions =
bcs)` does, as the concrete trace shows. -/
theorem C4_counterexample :
    ¬ (∀ e ∈ eventsOf (innerIter (liftOracle oracle0) 1 state0),
        e.args.bcs = true) := by
  decide

/-- C4 (amended): in every inner iteration the equation solves are invoked
in the fixed deterministic order — phase, then potential, then each
substitutional, then each interstitial — each with `var` equal to the
equation's own field and the one shared `dt`, the potential solve alone
carrying the boundary conditions and the species solves alone carrying the
LU solver; each solve's resulting equation residual is captured in its
event. -/
theorem C4_solve_order (o : Oracle) (dt : ℚ) (s : State) :
    ∃ s' evs r, innerIter (liftOracle o) dt s = .ok (s', evs, r)
      ∧ evs.map (fun e => e.args)
          = phaseArgs dt :: potentialArgs dt ::
            (subIds s.subs.length ++ interIds s.ints.length).map
              (fun id => speciesArgs id dt) := by
  obtain ⟨s', evs, r, hIter, hargs, _, _, _⟩ := innerIter_args o dt s
  exact ⟨s', evs, r, hIter, hargs⟩

/-- C5: an outer step begins by snapshotting every field of the ordered
collection into its old state before any solve of that step, so right
after the snapshot pass each field's old value equals its current value
(which is itself unchanged). -/
theorem C5_updateOld_snapshot (o : OracleE) (dt : ℚ) (m : Nat) (s : State)
    (r0 : ℚ) :
    outerStep o dt m s r0 = innerLoop o dt m (updateOldAll s) r0
      ∧ ∀ f fld, s.getField f = some fld →
          (updateOldAll s).getField f = some { fld with old := fld.value } := by
  refine ⟨rfl, fun f fld h => ?_⟩
  cases f with
  | phase =>
    injection h with h
    rw [← h]
    rfl
  | potential =>
    injection h with h
    rw [← h]
    rfl
  | sub i =>
    show (s.subs.map Field.updateOld)[i]? = _
    rw [List.getElem?_map, show s.subs[i]? = some fld from h]
    rfl
  | inter i =>
    show (s.ints.map Field.updateOld)[i]? = _
    rw [List.getElem?_map, show s.ints[i]? = some fld from h]
    rfl

/-- Witness for C5 at a concrete state and field. -/
theorem C5_updateOld_snapshot_witness :
    (updateOldAll state0).getField .phase
      = some { field0 with old := field0.value } :=
  (C5_updateOld_snapshot (liftOracle oracle0) 1 100 state0 0).2 .phase field0 rfl

/-- C6: if any field's equation solve raises a `SolveFailure` during an
inner iteration — at the phase solve, the potential solve, or any of the
species solves — the iteration performs no further solves, no retry and no
recovery: the sequential pass stops at its first failure, and `innerIter`,
the inner loop and the outer loop all abort immediately with that failure
and with the fields exactly as they were at the moment of failure
(completed solves applied, everything else untouched). -/
theorem C6_failure_propagation (o : OracleE) (dt : ℚ) (s : State)
    (e : SolveFailure) (sf : State)
    (h : solveArgs o (iterArgsList dt s) s = .error (e, sf)) :
    innerIter o dt s = .error (e, sf)
      ∧ (∀ m r0, innerLoop o dt (m + 1) s r0 = .error (e, sf))
      ∧ (∀ n m r0 s0 fs, outerStep o dt m s0 r0 = .error fs →
          run o dt m (n + 1) s0 r0 = .error fs) := by
  have hIter := innerIter_error_of_solveArgs o dt s e sf h
  refine ⟨hIter, fun m r0 => ?_, fun n m r0 s0 fs hh => ?_⟩
  · simp only [innerLoop, hIter]
  · simp only [run, hh]

/-- Witness for C6 at a concrete oracle whose failure occurs inside the
species pass (the second substitutional solve), after the phase, potential
and first substitutional solves have completed. -/
theorem C6_failure_propagation_witness :
    innerIter oracleFailSub 1 state0
      = .error (⟨7⟩,
          writeSolve (writeSolve (writeSolve state0 .phase ⟨[2], [3]⟩)
            .potential ⟨[2], [3]⟩) (.sub 0) ⟨[2], [3]⟩) :=
  (C6_failure_propagation oracleFailSub 1 state0 ⟨7⟩
    (writeSolve (writeSolve (writeSolve state0 .phase ⟨[2], [3]⟩)
      .potential ⟨[2], [3]⟩) (.sub 0) ⟨[2], [3]⟩) rfl).1

/-- C7: a solve writes only its own field — looking up any other field
after `writeSolve` gives exactly what was there before — and in every
inner iteration each solve is invoked with `var` equal to the field owning
the equation, with at most one solve writing a given field per
iteration. -/
theorem C7_single_writer (o : Oracle) (dt : ℚ) (s : State) :
    (∀ id r id', id' ≠ id →
        (writeSolve s id r).getField id' = s.getField id')
      ∧ ∃ s' evs r, innerIter (liftOracle o) dt s = .ok (s', evs, r)
          ∧ (∀ e ∈ evs, e.args.var = e.args.eq)
          ∧ (∀ f, varCount f evs ≤ 1) := by
  refine ⟨fun id r id' h => getField_writeSolve_ne s id id' r h, ?_⟩
  obtain ⟨s', evs, r, hIter, hargs, _, _, _⟩ := innerIter_args o dt s
  refine ⟨s', evs, r, hIter, ?_, ?_⟩
  · intro e he
    have hm : e.args ∈ evs.map (fun e => e.args) := List.mem_map_of_mem _ he
    rw [hargs] at hm
    simp only [List.mem_cons] at hm
    rcases hm with h | h | h
    · rw [h]
      rfl
    · rw [h]
      rfl
    · obtain ⟨id, _, hid⟩ := List.mem_map.1 h
      rw [← hid]
      rfl
  · intro f
    rw [varCount_of_args_map evs _ hargs f, iterArgs_var_map, count_iterIds]
    cases f with
    | phase => exact Nat.le_refl 1
    | potential => exact Nat.le_refl 1
    | sub i =>
      simp only [iterCount]
      split_ifs <;> omega
    | inter i =>
      simp only [iterCount]
      split_ifs <;> omega

/-- Witness for C7 at a concrete state: writing the phase field leaves the
potential field untouched. -/
theorem C7_single_writer_witness :
    (writeSolve state0 .phase ⟨[2], [3]⟩).getField .potential
      = state0.getField .potential :=
  (C7_single_writer oracle0 1 state0).1 .phase ⟨[2], [3]⟩ .potential (by decide)

/-- C8: `updateOld` is idempotent: snapshotting a field twice in
succession, with no solve in between, leaves exactly the state reached by
a single snapshot, both per field and for the whole snapshot pass. -/
theorem C8_updateOld_idempotent :
    (∀ f : Field, f.updateOld.updateOld = f.updateOld)
      ∧ ∀ s : State, updateOldAll (updateOldAll s) = updateOldAll s := by
  have h : ∀ f : Field, f.updateOld.updateOld = f.updateOld := fun f => rfl
  have h2 : Field.updateOld ∘ Field.updateOld = Field.updateOld := funext h
  refine ⟨h, fun s => ?_⟩
  simp [updateOldAll, List.map_map, h2, h]

/-- C9: the solve loop is deterministic — two runs from identical inputs
give identical outputs — and the coupling is Gauss-Seidel: within one
inner iteration the potential solve reads the state in which the phase
solve's update is already written. -/
theorem C9_determinism (o : Oracle) (dt : ℚ) (m n : Nat) (r0 : ℚ)
    (s t : State) (hst : s = t) :
    run (liftOracle o) dt m n s r0 = run (liftOracle o) dt m n t r0
      ∧ ∃ s' evsT r,
          innerIter (liftOracle o) dt s
            = .ok (s',
                ⟨phaseArgs dt, (o (phaseArgs dt) s).residual⟩ ::
                ⟨potentialArgs dt,
                  (o (potentialArgs dt)
                    (writeSolve s .phase (o (phaseArgs dt) s))).residual⟩ ::
                evsT,
                r) := by
  subst hst
  refine ⟨rfl, ?_⟩
  obtain ⟨s', evsT, r, hIter, _, _, _, _⟩ := innerIter_lift o dt s
  exact ⟨s', evsT, r, hIter⟩

/-- Witness for C9 at a concrete oracle and state. -/
theorem C9_determinism_witness :
    run (liftOracle oracle0) 1 2 3 state0 0
      = run (liftOracle oracle0) 1 2 3 state0 0 :=
  (C9_determinism oracle0 1 2 3 0 state0 state0 rfl).1

/-- C10: the residual value held when an outer step's inner loop finishes
is the tracker of the final inner iteration alone: the (m+1)-iteration
inner loop decomposes into the first m iterations followed by one last
iteration whose tracker — independent of the incoming residual variable —
is the reported value, and that tracker is the fold of the last
iteration's own residual maxima from 0. -/
theorem C10_last_iteration_residual (o : Oracle) (dt : ℚ) (m : Nat)
    (s : State) (r0 : ℚ) :
    ∃ sMid evs1 rMid s' evs2 r,
      innerLoop (liftOracle o) dt m s r0 = .ok (sMid, evs1, rMid)
        ∧ innerIter (liftOracle o) dt sMid = .ok (s', evs2, r)
        ∧ (∀ r0', innerLoop (liftOracle o) dt (m + 1) s r0'
            = .ok (s', evs1 ++ evs2, r))
        ∧ r = (evs2.map resOfEvent).foldr max 0 := by
  obtain ⟨sMid, evs1, rMid, s', evs2, r, hLoop, hIter, hAll⟩ :=
    innerLoop_snoc o dt m s r0
  refine ⟨sMid, evs1, rMid, s', evs2, r, hLoop, hIter, hAll, ?_⟩
  obtain ⟨s2, evs2x, r2, hIter2, _, hr2, _, _⟩ := innerIter_args o dt sMid
  rw [hIter] at hIter2
  injection hIter2 with hA
  injection hA with hs hrest
  injection hrest with hevs hr
  subst hevs
  exact hr.trans hr2

end Elphf
